import Mathlib

/-!
Verification of the left-leaning red-black tree from `src/llrb.rs`.

The Rust type `Option<Box<Node<K, V>>>` is embedded as the inductive `Tree`:
`None` becomes `Tree.nil` and `Some(box Node { key, val, color, left, right })`
becomes `Tree.node color key val left right`.  The Rust color convention is
kept verbatim: `color = true` is RED, `color = false` is BLACK.

Rust functions that can panic (`_flip_color` with its `unreachable!()` arms,
and the `unwrap` calls inside `_rotate_left` / `_rotate_right`) are embedded
as `Option`-returning functions where `none` marks the panic; `_insert`
threads those through `Option.bind`.  Keys are any linearly ordered type
(the Rust bound `K: Ord`), and `node.key.cmp(&k)` is embedded as `cmp key k`.
-/

set_option maxHeartbeats 1000000
set_option linter.unusedSectionVars false

namespace LLRB

/-- Embedding of `Option<Box<Node<K, V>>>` from src/llrb.rs: `nil` is `None`,
`node c k v l r` is a `Node` with `color = c` (`true` = RED, `false` = BLACK),
`key = k`, `val = v`, `left = l`, `right = r`.  An `LLRBTree` is its
(optional) root, hence also a `Tree`. -/
inductive Tree (K V : Type) where
  | nil : Tree K V
  | node (color : Bool) (key : K) (val : V) (left : Tree K V) (right : Tree K V) : Tree K V
deriving DecidableEq

namespace Tree

variable {K V : Type}

/-- Color of the root link: `node.color` of the root when present, BLACK for
an absent node (matching how the Rust guards treat `None`). -/
def red : Tree K V → Bool
  | .nil => false
  | .node c _ _ _ _ => c

/-- The `left` field of a node (`nil` for the empty tree). -/
def leftChild : Tree K V → Tree K V
  | .nil => .nil
  | .node _ _ _ l _ => l

/-- The `right` field of a node (`nil` for the empty tree). -/
def rightChild : Tree K V → Tree K V
  | .nil => .nil
  | .node _ _ _ _ r => r

/-- Number of nodes of the tree. -/
def size : Tree K V → Nat
  | .nil => 0
  | .node _ _ _ l r => size l + size r + 1

/-- In-order traversal of the (key, value) pairs. -/
def toList : Tree K V → List (K × V)
  | .nil => []
  | .node _ k v l r => toList l ++ (k, v) :: toList r

/-- In-order traversal of the keys. -/
def inorderKeys : Tree K V → List K
  | .nil => []
  | .node _ k _ l r => inorderKeys l ++ k :: inorderKeys r

/-- Shape of the tree with values erased: colors, keys and the two subtree
shapes of every node. -/
def strip : Tree K V → Tree K Unit
  | .nil => .nil
  | .node c k _ l r => .node c k () (strip l) (strip r)

end Tree

section Colorless

variable {K V : Type}

/-- Flip only the color of the root node (used to express the effect of
`_flip_color` on one child). -/
def flipRootColor : Tree K V → Tree K V
  | .nil => .nil
  | .node c k v l r => .node (!c) k v l r

theorem size_flipRootColor (t : Tree K V) : Tree.size (flipRootColor t) = Tree.size t := by
  cases t <;> rfl

end Colorless

variable {K V : Type} [LinearOrder K]

open Tree

/-- Embedding of `LLRBTree::search` (src/llrb.rs lines 48–58).  The Rust
`while let` descent becomes structural recursion; the comparison is
`(*node.key).cmp(&k)`, i.e. `cmp key k`. -/
def search : Tree K V → K → Option V
  | .nil, _ => none
  | .node _ key val l r, k =>
    match cmp key k with
    | Ordering.eq => some val
    | Ordering.lt => search r k
    | Ordering.gt => search l k

/-- Embedding of `LLRBTree::_should_flip_color` (lines 94–105): true iff both
children are present and both RED. -/
def shouldFlipColor : Tree K V → Bool
  | .node _ _ _ (.node lc _ _ _ _) (.node rc _ _ _ _) => lc && rc
  | _ => false

/-- Embedding of `LLRBTree::_flip_color` (lines 107–117).  The function
inverts the node's color and both children's colors; the `unreachable!()`
arms taken when a child is absent are embedded as `none`. -/
def flipColor : Tree K V → Option (Tree K V)
  | .node c k v (.node lc lk lv ll lr) (.node rc rk rv rl rr) =>
      some (.node (!c) k v (.node (!lc) lk lv ll lr) (.node (!rc) rk rv rl rr))
  | _ => none

/-- Embedding of `LLRBTree::_should_rotate_left` (lines 119–125), taking the
`left` and `right` fields of the node under repair. -/
def shouldRotateLeft : Tree K V → Tree K V → Bool
  | l, r =>
    match r, l with
    | .node rc _ _ _ _, .nil => rc
    | .node rc _ _ _ _, .node lc _ _ _ _ => rc && !lc
    | _, _ => false

/-- Embedding of `LLRBTree::_should_rotate_right` (lines 127–137), taking the
`left` field of the node under repair. -/
def shouldRotateRight : Tree K V → Bool
  | .nil => false
  | .node lc _ _ ll _ =>
    match ll with
    | .nil => false
    | .node llc _ _ _ _ => lc && llc

/-- Embedding of `LLRBTree::_rotate_left` (lines 139–157): the right child
`x = node_h.right.unwrap()` becomes the new local root keeping the old color,
the old root becomes its RED left child.  The `unwrap` on an absent right
child is embedded as `none`. -/
def rotateLeft : Tree K V → Option (Tree K V)
  | .node c k v l (.node _ xk xv xl xr) =>
      some (.node c xk xv (.node true k v l xl) xr)
  | _ => none

/-- Embedding of `LLRBTree::_rotate_right` (lines 159–177): the left child
`x = node_h.left.unwrap()` becomes the new local root keeping the old color,
the old root becomes its RED right child.  The `unwrap` on an absent left
child is embedded as `none`. -/
def rotateRight : Tree K V → Option (Tree K V)
  | .node c k v (.node _ xk xv xl xr) r =>
      some (.node c xk xv xl (.node true k v xr r))
  | _ => none

/-- The fix-up sequence of `LLRBTree::_insert` (lines 77–87): rotate left if
`_should_rotate_left(&node.left, &node.right)`, then rotate right if
`_should_rotate_right(&node.left)`, then flip colors if
`_should_flip_color(&node)`. -/
def insertFix (h : Tree K V) : Option (Tree K V) :=
  (if shouldRotateLeft (leftChild h) (rightChild h) then rotateLeft h else some h).bind
    fun h2 =>
      (if shouldRotateRight (leftChild h2) then rotateRight h2 else some h2).bind
        fun h3 =>
          if shouldFlipColor h3 then flipColor h3 else some h3

/-- Embedding of `LLRBTree::_insert` (lines 63–92).  An absent node becomes a
new RED leaf (`Node::new`, line 17–25).  Otherwise the entry color flip
(lines 68–70) runs first — its branches are spelled out here, and since it is
guarded by `_should_flip_color` both children are present, so `_flip_color`
cannot reach its `unreachable!()` arms at this call site (see
`flipColor_of_shouldFlipColor`); then the node's key is compared to the new
key (`(*node.key).cmp(&k)`): `Equal` overwrites the value, `Less` recurses
into the right child, `Greater` into the left child; finally the fix-up
sequence `insertFix` runs. -/
def insertGo : Tree K V → K → V → Option (Tree K V)
  | .nil, k, v => some (.node true k v .nil .nil)
  | .node c key val l r, k, v =>
    if shouldFlipColor (.node c key val l r) then
      match cmp key k with
      | Ordering.eq => insertFix (.node (!c) key v (flipRootColor l) (flipRootColor r))
      | Ordering.lt => (insertGo (flipRootColor r) k v).bind fun r2 =>
          insertFix (.node (!c) key val (flipRootColor l) r2)
      | Ordering.gt => (insertGo (flipRootColor l) k v).bind fun l2 =>
          insertFix (.node (!c) key val l2 (flipRootColor r))
    else
      match cmp key k with
      | Ordering.eq => insertFix (.node c key v l r)
      | Ordering.lt => (insertGo r k v).bind fun r2 => insertFix (.node c key val l r2)
      | Ordering.gt => (insertGo l k v).bind fun l2 => insertFix (.node c key val l2 r)
termination_by t _ _ => size t
decreasing_by
  all_goals (simp [size, size_flipRootColor]; omega)

/-- Forcing the root's color to BLACK: the `if let Some(ref mut r) = self.root
{ r.color = false }` step of `LLRBTree::insert` (lines 43–45). -/
def setRootBlack : Tree K V → Tree K V
  | .nil => .nil
  | .node _ k v l r => .node false k v l r

/-- Embedding of `LLRBTree::insert` (lines 41–46): replace the root by
`_insert(root, k, v)` and force the root's color to BLACK. -/
def insert (t : Tree K V) (k : K) (v : V) : Option (Tree K V) :=
  (insertGo t k v).map setRootBlack

/-- Running a sequence of `insert` calls left to right, starting from `t`. -/
def buildFrom : Tree K V → List (K × V) → Option (Tree K V)
  | t, [] => some t
  | t, kv :: rest => (insert t kv.1 kv.2).bind fun t' => buildFrom t' rest

/-- The tree obtained from `LLRBTree::new()` (an empty root, lines 35–39) by
the given sequence of `insert` calls, performed left to right. -/
def build (ops : List (K × V)) : Option (Tree K V) :=
  buildFrom .nil ops

/-- Variant of `_insert` with the entry color flip (lines 68–70) removed and
everything else unchanged; used to state the refinement claim that the entry
flip is a no-op on reachable trees. -/
def insertGoNF : Tree K V → K → V → Option (Tree K V)
  | .nil, k, v => some (.node true k v .nil .nil)
  | .node c key val l r, k, v =>
    match cmp key k with
    | Ordering.eq => insertFix (.node c key v l r)
    | Ordering.lt => (insertGoNF r k v).bind fun r2 => insertFix (.node c key val l r2)
    | Ordering.gt => (insertGoNF l k v).bind fun l2 => insertFix (.node c key val l2 r)

/-- Pure value replacement at key `k`: identical to the tree except that the
node whose key equals `k` (if any) carries the new value. -/
def updateValue : Tree K V → K → V → Tree K V
  | .nil, _, _ => .nil
  | .node c key val l r, k, v =>
    match cmp key k with
    | Ordering.eq => .node c key v l r
    | Ordering.lt => .node c key val l (updateValue r k v)
    | Ordering.gt => .node c key val (updateValue l k v) r

/-- No node of the tree has a RED right child. -/
def noRedRight : Tree K V → Bool
  | .nil => true
  | .node _ _ _ l r => !red r && noRedRight l && noRedRight r

/-- Every RED node has two non-RED children, at every node of the tree;
equivalently, no downward path contains two consecutive RED links. -/
def okRed : Tree K V → Bool
  | .nil => true
  | .node c _ _ l r => (!c || (!red l && !red r)) && okRed l && okRed r

/-- Both subtrees of the root satisfy `okRed`; the root itself is allowed a
RED color and a RED left child (the single transient violation `_insert` can
hand back to its caller). -/
def almostOkRed : Tree K V → Bool
  | .nil => true
  | .node _ _ _ l r => okRed l && okRed r

/-- All keys of the tree satisfy the predicate. -/
def allKeysB (p : K → Bool) : Tree K V → Bool
  | .nil => true
  | .node _ k _ l r => p k && allKeysB p l && allKeysB p r

/-- Binary-search-tree ordering: at every node, all keys of the left subtree
compare less than the node's key and all keys of the right subtree compare
greater. -/
def isBST : Tree K V → Bool
  | .nil => true
  | .node _ k _ l r =>
      allKeysB (fun x => decide (x < k)) l && allKeysB (fun x => decide (k < x)) r &&
        isBST l && isBST r

/-- Uniform black height: `some n` iff every path from the root to an empty
subtree passes through exactly `n` BLACK nodes (counting each node's own
color, i.e. the color of its incoming link), `none` if the counts disagree. -/
def bh : Tree K V → Option Nat
  | .nil => some 0
  | .node c _ _ l r =>
    match bh l, bh r with
    | some a, some b => if a = b then some (if c then a else a + 1) else none
    | _, _ => none

/-- The list of black-link counts of all root-to-empty-child paths. -/
def blackCounts : Tree K V → List Nat
  | .nil => [0]
  | .node c _ _ l r =>
      (blackCounts l ++ blackCounts r).map fun d => if c then d else d + 1

/-- Length of a longest path from the root to an empty child. -/
def maxDepth : Tree K V → Nat
  | .nil => 0
  | .node _ _ _ l r => 1 + max (maxDepth l) (maxDepth r)

/-- Length of a shortest path from the root to an empty child. -/
def minDepth : Tree K V → Nat
  | .nil => 0
  | .node _ _ _ l r => 1 + min (minDepth l) (minDepth r)

/-- Insertion with overwrite into a sorted association list: the list-level
model of one `insert` call. -/
def insertSorted (k : K) (v : V) : List (K × V) → List (K × V)
  | [] => [(k, v)]
  | (k0, v0) :: rest =>
    match cmp k0 k with
    | Ordering.eq => (k0, v) :: rest
    | Ordering.lt => (k0, v0) :: insertSorted k v rest
    | Ordering.gt => (k, v) :: (k0, v0) :: rest

/-- First-match association-list lookup. -/
def assocLookup : List (K × V) → K → Option V
  | [], _ => none
  | (k0, v0) :: rest, q => if k0 = q then some v0 else assocLookup rest q

/-- The most recently inserted value for key `q` in a sequence of insert
calls, `none` if `q` was never inserted. -/
def lastInserted (ops : List (K × V)) (q : K) : Option V :=
  ops.foldl (fun acc kv => if kv.1 = q then some kv.2 else acc) none

/-- The list-level model of `build`: fold the sorted-list insertion over the
sequence of insert calls. -/
def modelList (ops : List (K × V)) : List (K × V) :=
  ops.foldl (fun L kv => insertSorted kv.1 kv.2 L) []

/-- The invariants that hold of every tree reachable from `new()` by `insert`
calls: no RED right child, no RED node with a RED child, uniform black
height, binary-search-tree ordering, and a BLACK root. -/
def WF (t : Tree K V) : Prop :=
  noRedRight t = true ∧ okRed t = true ∧ (∃ n, bh t = some n) ∧
    isBST t = true ∧ red t = false

/-! ### Normal forms for the guards and the basic rotation equations -/

@[simp] theorem leftChild_nil : leftChild (Tree.nil : Tree K V) = .nil := rfl

@[simp] theorem rightChild_nil : rightChild (Tree.nil : Tree K V) = .nil := rfl

@[simp] theorem leftChild_node (c : Bool) (k : K) (v : V) (l r : Tree K V) :
    leftChild (.node c k v l r) = l := rfl

@[simp] theorem rightChild_node (c : Bool) (k : K) (v : V) (l r : Tree K V) :
    rightChild (.node c k v l r) = r := rfl

@[simp] theorem red_nil : red (Tree.nil : Tree K V) = false := rfl

@[simp] theorem red_node (c : Bool) (k : K) (v : V) (l r : Tree K V) :
    red (.node c k v l r) = c := rfl

theorem shouldFlipColor_node (c : Bool) (k : K) (v : V) (l r : Tree K V) :
    shouldFlipColor (.node c k v l r) = (red l && red r) := by
  cases l <;> cases r <;> simp [shouldFlipColor, red]

theorem shouldRotateLeft_eq (l r : Tree K V) :
    shouldRotateLeft l r = (red r && !red l) := by
  cases l <;> cases r <;> simp [shouldRotateLeft, red]

theorem shouldRotateRight_eq (l : Tree K V) :
    shouldRotateRight l = (red l && red (leftChild l)) := by
  cases l with
  | nil => rfl
  | node lc lk lv ll lr => cases ll <;> simp [shouldRotateRight, leftChild, red, Bool.and_comm]

theorem flipColor_of_shouldFlipColor (t : Tree K V) (h : shouldFlipColor t = true) :
    ∃ c k v l r, t = .node c k v l r ∧
      flipColor t = some (.node (!c) k v (flipRootColor l) (flipRootColor r)) := by
  cases t with
  | nil => simp [shouldFlipColor] at h
  | node c k v l r =>
    cases l with
    | nil => simp [shouldFlipColor] at h
    | node lc lk lv ll lr =>
      cases r with
      | nil => simp [shouldFlipColor] at h
      | node rc rk rv rl rr =>
        exact ⟨c, k, v, _, _, rfl, rfl⟩

/-! ### The four reachable behaviours of the fix-up sequence

On trees satisfying the red invariants, `insertFix` has exactly four
behaviours, depending on the colors around the root of its argument: do
nothing, rotate left, flip colors, or rotate right followed by a color flip.
Each scenario is proved by computing the three guarded steps. -/

/-- Fix-up scenario: nothing fires.  The guards need the right child to be
non-RED and the left child not to start a RED-RED chain. -/
theorem insertFix_id (c : Bool) (key : K) (val : V) (l r : Tree K V)
    (hr : red r = false) (hl : red l = true → red (leftChild l) = false) :
    insertFix (.node c key val l r) = some (.node c key val l r) := by
  rcases hcl : red l with _ | _
  · simp [insertFix, shouldRotateLeft_eq, shouldRotateRight_eq, shouldFlipColor_node, hr, hcl]
  · simp [insertFix, shouldRotateLeft_eq, shouldRotateRight_eq, shouldFlipColor_node,
      hr, hcl, hl hcl]

/-- Fix-up scenario: only the left rotation fires (RED right child, non-RED
left child, and the RED right child's own right child is non-RED). -/
theorem insertFix_rotL (c : Bool) (key : K) (val : V) (l : Tree K V)
    (rk : K) (rv : V) (rl rr : Tree K V)
    (hl : red l = false) (hrr : red rr = false) :
    insertFix (.node c key val l (.node true rk rv rl rr)) =
      some (.node c rk rv (.node true key val l rl) rr) := by
  simp [insertFix, shouldRotateLeft_eq, shouldRotateRight_eq, shouldFlipColor_node,
    hl, hrr, rotateLeft]

/-- Fix-up scenario: only the color flip fires (both children RED, and the
left child's left child non-RED so the right rotation stays off). -/
theorem insertFix_flip (c : Bool) (key : K) (val : V)
    (lk : K) (lv : V) (ll lr : Tree K V) (rk : K) (rv : V) (rl rr : Tree K V)
    (hll : red ll = false) :
    insertFix (.node c key val (.node true lk lv ll lr) (.node true rk rv rl rr)) =
      some (.node (!c) key val (.node false lk lv ll lr) (.node false rk rv rl rr)) := by
  simp [insertFix, shouldRotateLeft_eq, shouldRotateRight_eq, shouldFlipColor_node,
    hll, flipColor]

/-- Fix-up scenario: the right rotation fires on a RED-RED left chain and the
color flip it enables runs right after (non-RED right child). -/
theorem insertFix_rotR_flip (c : Bool) (key : K) (val : V)
    (lk : K) (lv : V) (llk : K) (llv : V) (lll llr lr r : Tree K V)
    (hr : red r = false) :
    insertFix (.node c key val
        (.node true lk lv (.node true llk llv lll llr) lr) r) =
      some (.node (!c) lk lv (.node false llk llv lll llr)
        (.node false key val lr r)) := by
  simp [insertFix, shouldRotateLeft_eq, shouldRotateRight_eq, shouldFlipColor_node,
    hr, rotateRight, flipColor]

/-! ### Totality: insertion never reaches a panic (claim C6 machinery) -/

theorem rotateLeft_isSome (h : Tree K V)
    (hg : shouldRotateLeft (leftChild h) (rightChild h) = true) :
    (rotateLeft h).isSome = true := by
  cases h with
  | nil => simp [shouldRotateLeft_eq] at hg
  | node c k v l r =>
    cases r with
    | nil => simp [shouldRotateLeft_eq] at hg
    | node rc rk rv rl rr => simp [rotateLeft]

theorem rotateRight_isSome (h : Tree K V)
    (hg : shouldRotateRight (leftChild h) = true) :
    (rotateRight h).isSome = true := by
  cases h with
  | nil => simp [shouldRotateRight_eq] at hg
  | node c k v l r =>
    cases l with
    | nil => simp [shouldRotateRight_eq] at hg
    | node lc lk lv ll lr => simp [rotateRight]

theorem flipColor_isSome (h : Tree K V) (hg : shouldFlipColor h = true) :
    (flipColor h).isSome = true := by
  obtain ⟨c, k, v, l, r, rfl, heq⟩ := flipColor_of_shouldFlipColor h hg
  simp [heq]

theorem insertFix_isSome (h : Tree K V) : (insertFix h).isSome = true := by
  rw [insertFix]
  rcases hg1 : shouldRotateLeft (leftChild h) (rightChild h) with _ | _
  · rcases hg2 : shouldRotateRight (leftChild h) with _ | _
    · rcases hg3 : shouldFlipColor h with _ | _
      · simp [hg1, hg2, hg3]
      · simpa [hg1, hg2, hg3] using flipColor_isSome h hg3
    · obtain ⟨h2, hh2⟩ := Option.isSome_iff_exists.mp (rotateRight_isSome h hg2)
      rcases hg3 : shouldFlipColor h2 with _ | _
      · simp [hg1, hg2, hg3, hh2]
      · simpa [hg1, hg2, hg3, hh2] using flipColor_isSome h2 hg3
  · obtain ⟨h2, hh2⟩ := Option.isSome_iff_exists.mp (rotateLeft_isSome h hg1)
    rcases hg2 : shouldRotateRight (leftChild h2) with _ | _
    · rcases hg3 : shouldFlipColor h2 with _ | _
      · simp [hg1, hg2, hg3, hh2]
      · simpa [hg1, hg2, hg3, hh2] using flipColor_isSome h2 hg3
    · obtain ⟨h3, hh3⟩ := Option.isSome_iff_exists.mp (rotateRight_isSome h2 hg2)
      rcases hg3 : shouldFlipColor h3 with _ | _
      · simp [hg1, hg2, hg3, hh2, hh3]
      · simpa [hg1, hg2, hg3, hh2, hh3] using flipColor_isSome h3 hg3

theorem insertGo_isSome (t : Tree K V) (k : K) (v : V) :
    (insertGo t k v).isSome = true := by
  have main : ∀ N t, Tree.size t ≤ N → ∀ (k : K) (v : V), (insertGo t k v).isSome = true := by
    intro N
    induction N with
    | zero =>
      intro t ht k v
      cases t with
      | nil => simp [insertGo]
      | node c key val l r => simp [Tree.size] at ht
    | succ N ih =>
      intro t ht k v
      cases t with
      | nil => simp [insertGo]
      | node c key val l r =>
        have hl : Tree.size l ≤ N := by simp [Tree.size] at ht; omega
        have hr : Tree.size r ≤ N := by simp [Tree.size] at ht; omega
        rw [insertGo]
        rcases hfl : shouldFlipColor (Tree.node c key val l r) with _ | _ <;>
          rcases hcmp : cmp key k with _ | _ | _ <;>
            simp only [hfl, hcmp, if_true, if_false, Bool.false_eq_true, ite_false, ite_true]
        · obtain ⟨r2, hr2⟩ := Option.isSome_iff_exists.mp (ih r hr k v)
          simp [hr2, insertFix_isSome]
        · exact insertFix_isSome _
        · obtain ⟨l2, hl2⟩ := Option.isSome_iff_exists.mp (ih l hl k v)
          simp [hl2, insertFix_isSome]
        · obtain ⟨r2, hr2⟩ := Option.isSome_iff_exists.mp
            (ih (flipRootColor r) (by rwa [size_flipRootColor]) k v)
          simp [hr2, insertFix_isSome]
        · exact insertFix_isSome _
        · obtain ⟨l2, hl2⟩ := Option.isSome_iff_exists.mp
            (ih (flipRootColor l) (by rwa [size_flipRootColor]) k v)
          simp [hl2, insertFix_isSome]
  exact main (Tree.size t) t le_rfl k v

theorem insert_isSome (t : Tree K V) (k : K) (v : V) :
    (insert t k v).isSome = true := by
  obtain ⟨t', h⟩ := Option.isSome_iff_exists.mp (insertGo_isSome t k v)
  simp [insert, h]

/-! ### Decomposing the invariants at a node -/

theorem noRedRight_node {c : Bool} {k : K} {v : V} {l r : Tree K V}
    (h : noRedRight (.node c k v l r) = true) :
    red r = false ∧ noRedRight l = true ∧ noRedRight r = true := by
  simpa [noRedRight, Bool.and_eq_true, Bool.not_eq_true', and_assoc] using h

theorem noRedRight_node_intro {c : Bool} {k : K} {v : V} {l r : Tree K V}
    (hr : red r = false) (h1 : noRedRight l = true) (h2 : noRedRight r = true) :
    noRedRight (.node c k v l r) = true := by
  simp [noRedRight, Bool.and_eq_true, Bool.not_eq_true', hr, h1, h2]

theorem okRed_node {c : Bool} {k : K} {v : V} {l r : Tree K V}
    (h : okRed (.node c k v l r) = true) :
    (c = true → red l = false ∧ red r = false) ∧ okRed l = true ∧ okRed r = true := by
  rcases c with _ | _ <;>
    simpa [okRed, Bool.and_eq_true, Bool.not_eq_true', and_assoc] using h

theorem okRed_node_intro {c : Bool} {k : K} {v : V} {l r : Tree K V}
    (hc : c = true → red l = false ∧ red r = false)
    (h1 : okRed l = true) (h2 : okRed r = true) :
    okRed (.node c k v l r) = true := by
  rcases c with _ | _
  · simp [okRed, Bool.and_eq_true, h1, h2]
  · obtain ⟨hl, hr⟩ := hc rfl
    simp [okRed, Bool.and_eq_true, Bool.not_eq_true', h1, h2, hl, hr]

theorem almostOkRed_node_intro {c : Bool} {k : K} {v : V} {l r : Tree K V}
    (h1 : okRed l = true) (h2 : okRed r = true) :
    almostOkRed (.node c k v l r) = true := by
  simp [almostOkRed, h1, h2]

theorem okRed_left {t : Tree K V} (h : okRed t = true) : okRed (leftChild t) = true := by
  cases t with
  | nil => simp [leftChild, okRed]
  | node c k v l r => exact (okRed_node h).2.1

/-- A tree that satisfies `okRed` never starts a RED-RED left chain, which is
what `_should_rotate_right` looks for. -/
theorem okRed_no_redred {t : Tree K V} (h : okRed t = true) :
    red t = true → red (leftChild t) = false := by
  intro hred
  cases t with
  | nil => simp at hred
  | node c k v l r =>
    obtain ⟨hc, _, _⟩ := okRed_node h
    simpa [leftChild] using (hc hred).1

/-- If the root is not RED, `almostOkRed` already gives `okRed` back. -/
theorem okRed_of_almost_black {t : Tree K V}
    (h : almostOkRed t = true) (hb : red t = false) : okRed t = true := by
  cases t with
  | nil => simp [okRed]
  | node c k v l r =>
    simp [red] at hb
    subst hb
    simp [almostOkRed, Bool.and_eq_true] at h
    exact okRed_node_intro (by simp) h.1 h.2

/-- If the root is RED but neither child is, `almostOkRed` gives `okRed`. -/
theorem okRed_of_almost_children {t : Tree K V}
    (h : almostOkRed t = true) (hl : red (leftChild t) = false)
    (hr : red (rightChild t) = false) : okRed t = true := by
  cases t with
  | nil => simp [okRed]
  | node c k v l r =>
    simp [almostOkRed, Bool.and_eq_true] at h
    simp [leftChild] at hl
    simp [rightChild] at hr
    exact okRed_node_intro (fun _ => ⟨hl, hr⟩) h.1 h.2

theorem isBST_node {c : Bool} {k : K} {v : V} {l r : Tree K V}
    (h : isBST (.node c k v l r) = true) :
    allKeysB (fun x => decide (x < k)) l = true ∧
      allKeysB (fun x => decide (k < x)) r = true ∧
      isBST l = true ∧ isBST r = true := by
  simpa [isBST, Bool.and_eq_true, and_assoc] using h

theorem bh_node {c : Bool} {k : K} {v : V} {l r : Tree K V} {n : Nat}
    (h : bh (.node c k v l r) = some n) :
    ∃ a, bh l = some a ∧ bh r = some a ∧ n = (if c then a else a + 1) := by
  rcases hl : bh l with _ | a <;> rcases hr : bh r with _ | b <;>
    simp [bh, hl, hr] at h
  rcases h with ⟨rfl, rfl⟩
  exact ⟨a, rfl, rfl, rfl⟩

theorem bh_node_intro {a : Nat} (c : Bool) (k : K) (v : V) {l r : Tree K V}
    (hl : bh l = some a) (hr : bh r = some a) :
    bh (.node c k v l r) = some (if c then a else a + 1) := by
  simp [bh, hl, hr]

/-- Blackening a RED root raises the uniform black height by one. -/
theorem bh_flipRootColor_red {t : Tree K V} {a : Nat}
    (hred : red t = true) (h : bh t = some a) :
    bh (flipRootColor t) = some (a + 1) := by
  cases t with
  | nil => simp [red_nil] at hred
  | node c k v l r =>
    simp only [red_node] at hred
    subst hred
    obtain ⟨b, hl, hr, hn⟩ := bh_node h
    simp at hn
    subst hn
    simpa [flipRootColor] using bh_node_intro false k v hl hr

theorem red_flipRootColor_of_red {t : Tree K V} (h : red t = true) :
    red (flipRootColor t) = false := by
  cases t with
  | nil => simp [red_nil] at h
  | node c k v l r => simp only [red_node] at h; subst h; rfl

theorem noRedRight_flipRootColor (t : Tree K V) :
    noRedRight (flipRootColor t) = noRedRight t := by
  cases t <;> simp [flipRootColor, noRedRight]

/-- Blackening the root of an `okRed` tree keeps `okRed`. -/
theorem okRed_flipRootColor_red {t : Tree K V}
    (h : okRed t = true) (hred : red t = true) : okRed (flipRootColor t) = true := by
  cases t with
  | nil => simp [flipRootColor, okRed]
  | node c k v l r =>
    obtain ⟨_, h1, h2⟩ := okRed_node h
    simp only [red_node] at hred
    subst hred
    rw [show flipRootColor (Tree.node true k v l r) = Tree.node false k v l r from rfl]
    exact okRed_node_intro (by simp) h1 h2

theorem toList_flipRootColor (t : Tree K V) : toList (flipRootColor t) = toList t := by
  cases t <;> simp [flipRootColor, toList]

/-! ### List-level facts about the model operations -/

theorem allKeysB_iff_toList (p : K → Bool) (t : Tree K V) :
    allKeysB p t = true ↔ ∀ kv ∈ toList t, p kv.1 = true := by
  induction t with
  | nil => simp [allKeysB, toList]
  | node c k v l r ihl ihr =>
    simp only [allKeysB, toList, Bool.and_eq_true]
    constructor
    · rintro ⟨⟨hk, hl⟩, hr⟩ kv hkv
      rcases List.mem_append.mp hkv with hkv | hkv
      · exact (ihl.mp hl) kv hkv
      · rcases List.mem_cons.mp hkv with rfl | hkv
        · exact hk
        · exact (ihr.mp hr) kv hkv
    · intro h
      refine ⟨⟨h (k, v) (by simp), ihl.mpr fun kv hkv => h kv ?_⟩,
        ihr.mpr fun kv hkv => h kv ?_⟩
      · exact List.mem_append.mpr (Or.inl hkv)
      · exact List.mem_append.mpr (Or.inr (List.mem_cons.mpr (Or.inr hkv)))

theorem insertSorted_append_of_lt (k : K) (v : V) (L1 L2 : List (K × V))
    (h : ∀ kv ∈ L1, kv.1 < k) :
    insertSorted k v (L1 ++ L2) = L1 ++ insertSorted k v L2 := by
  induction L1 with
  | nil => simp
  | cons kv0 rest ih =>
    obtain ⟨k0, v0⟩ := kv0
    have hk0 : k0 < k := h (k0, v0) (by simp)
    have hcc : cmp k0 k = Ordering.lt := (cmp_eq_lt_iff k0 k).mpr hk0
    simp [insertSorted, hcc, List.append_eq, ih (fun kv hkv => h kv (by simp [hkv]))]

theorem insertSorted_append_of_gt (k : K) (v : V) (key : K) (val : V)
    (L1 L2 : List (K × V)) (h : k < key) :
    insertSorted k v (L1 ++ (key, val) :: L2) =
      insertSorted k v L1 ++ (key, val) :: L2 := by
  induction L1 with
  | nil =>
    have : cmp key k = Ordering.gt := (cmp_eq_gt_iff key k).mpr h
    simp [insertSorted, this]
  | cons kv0 rest ih =>
    obtain ⟨k0, v0⟩ := kv0
    rcases hc : cmp k0 k with _ | _ | _ <;>
      simp only [List.cons_append, insertSorted, hc, List.nil_append] <;> simp [ih]

theorem insertSorted_cons_self (k : K) (v : V) (val : V) (L : List (K × V)) :
    insertSorted k v ((k, val) :: L) = (k, v) :: L := by
  simp [insertSorted, cmp_self_eq_eq]

theorem assocLookup_insertSorted (k : K) (v : V) (L : List (K × V)) (q : K) :
    assocLookup (insertSorted k v L) q =
      if k = q then some v else assocLookup L q := by
  induction L with
  | nil => simp [insertSorted, assocLookup]
  | cons kv0 rest ih =>
    obtain ⟨k0, v0⟩ := kv0
    rcases hc : cmp k0 k with _ | _ | _
    · -- k0 < k
      have hk0 : k0 < k := (cmp_eq_lt_iff k0 k).mp hc
      by_cases hq : k0 = q
      · subst hq
        have : k ≠ k0 := fun h => absurd h (ne_of_gt hk0)
        simp [insertSorted, hc, assocLookup, this]
      · simp [insertSorted, hc, assocLookup, hq, ih]
    · -- k0 = k
      have hk0 : k0 = k := (cmp_eq_eq_iff k0 k).mp hc
      subst hk0
      by_cases hq : k0 = q <;> simp [insertSorted, hc, assocLookup, hq]
    · -- k < k0
      have hk0 : k < k0 := (cmp_eq_gt_iff k0 k).mp hc
      by_cases hq : k = q
      · subst hq
        simp [insertSorted, hc, assocLookup]
      · simp [insertSorted, hc, assocLookup, hq]

theorem assocLookup_append_none (L1 L2 : List (K × V)) (q : K)
    (h : assocLookup L1 q = none) :
    assocLookup (L1 ++ L2) q = assocLookup L2 q := by
  induction L1 with
  | nil => simp
  | cons kv0 rest ih =>
    obtain ⟨k0, v0⟩ := kv0
    by_cases hq : k0 = q
    · simp [assocLookup, hq] at h
    · simp [assocLookup, hq] at h ⊢
      exact ih h

theorem assocLookup_append_some (L1 L2 : List (K × V)) (q : K) (v : V)
    (h : assocLookup L1 q = some v) :
    assocLookup (L1 ++ L2) q = some v := by
  induction L1 with
  | nil => simp [assocLookup] at h
  | cons kv0 rest ih =>
    obtain ⟨k0, v0⟩ := kv0
    by_cases hq : k0 = q <;> simp [assocLookup, hq] at h ⊢
    · exact h
    · exact ih h

theorem assocLookup_eq_none (L : List (K × V)) (q : K)
    (h : ∀ kv ∈ L, kv.1 ≠ q) : assocLookup L q = none := by
  induction L with
  | nil => rfl
  | cons kv0 rest ih =>
    obtain ⟨k0, v0⟩ := kv0
    have : k0 ≠ q := h (k0, v0) (by simp)
    simp [assocLookup, this]
    exact ih fun kv hkv => h kv (by simp [hkv])

/-- On binary search trees, `search` coincides with first-match association
lookup on the in-order traversal. -/
theorem search_eq_assocLookup (t : Tree K V) (q : K) (hbst : isBST t = true) :
    search t q = assocLookup (toList t) q := by
  induction t with
  | nil => rfl
  | node c key val l r ihl ihr =>
    obtain ⟨hkl, hkr, hbl, hbr⟩ := isBST_node hbst
    rcases hc : cmp key q with _ | _ | _
    · -- key < q : descend right
      have hkey : key < q := (cmp_eq_lt_iff key q).mp hc
      have hnone : assocLookup (toList l) q = none := by
        apply assocLookup_eq_none
        intro kv hkv
        have := (allKeysB_iff_toList _ l).mp hkl kv hkv
        simp at this
        exact ne_of_lt (lt_trans this hkey)
      simp only [search, hc, toList]
      rw [assocLookup_append_none _ _ _ hnone]
      have hne : key ≠ q := ne_of_lt hkey
      simp only [assocLookup, hne, if_false]
      exact ihr hbr
    · -- key = q : found here
      have hkey : key = q := (cmp_eq_eq_iff key q).mp hc
      have hnone : assocLookup (toList l) q = none := by
        apply assocLookup_eq_none
        intro kv hkv
        have := (allKeysB_iff_toList _ l).mp hkl kv hkv
        simp at this
        exact ne_of_lt (hkey ▸ this)
      simp only [search, hc, toList]
      rw [assocLookup_append_none _ _ _ hnone]
      simp [assocLookup, hkey]
    · -- q < key : descend left
      have hkey : q < key := (cmp_eq_gt_iff key q).mp hc
      simp only [search, hc, toList]
      rcases hfind : assocLookup (toList l) q with _ | v0
      · rw [assocLookup_append_none _ _ _ hfind]
        have hne : key ≠ q := ne_of_gt hkey
        have hnr : assocLookup (toList r) q = none := by
          apply assocLookup_eq_none
          intro kv hkv
          have := (allKeysB_iff_toList _ r).mp hkr kv hkv
          simp at this
          exact ne_of_gt (lt_trans hkey this)
        rw [ihl hbl, hfind]
        simp [assocLookup, hne, hnr]
      · rw [assocLookup_append_some _ _ _ _ hfind, ihl hbl, hfind]

/-- Every element of `insertSorted k v L` is an element of `L` or the new
pair itself. -/
theorem mem_insertSorted (k : K) (v : V) (L : List (K × V)) (p : K × V)
    (hp : p ∈ insertSorted k v L) : p ∈ L ∨ p = (k, v) := by
  induction L with
  | nil => simpa [insertSorted] using hp
  | cons kv1 rest1 ih =>
    obtain ⟨k1, v1⟩ := kv1
    rcases hc1 : cmp k1 k with _ | _ | _ <;>
      simp only [insertSorted, hc1, List.mem_cons] at hp
    · rcases hp with rfl | hp
      · exact Or.inl (by simp)
      · rcases ih hp with h | h
        · exact Or.inl (by simp [h])
        · exact Or.inr h
    · have hk1 : k1 = k := (cmp_eq_eq_iff k1 k).mp hc1
      subst hk1
      rcases hp with rfl | hp
      · exact Or.inr rfl
      · exact Or.inl (by simp [hp])
    · rcases hp with rfl | hp
      · exact Or.inr rfl
      · exact Or.inl (List.mem_cons.mpr hp)

/-- One sorted-list insertion keeps the keys strictly increasing. -/
theorem insertSorted_pairwise (k : K) (v : V) (L : List (K × V))
    (h : L.Pairwise fun p q => p.1 < q.1) :
    (insertSorted k v L).Pairwise fun p q => p.1 < q.1 := by
  induction L with
  | nil => simp [insertSorted]
  | cons kv0 rest ih =>
    obtain ⟨k0, v0⟩ := kv0
    rw [List.pairwise_cons] at h
    obtain ⟨h0, hrest⟩ := h
    rcases hc : cmp k0 k with _ | _ | _
    · have hk0 : k0 < k := (cmp_eq_lt_iff k0 k).mp hc
      simp only [insertSorted, hc]
      rw [List.pairwise_cons]
      refine ⟨?_, ih hrest⟩
      intro p hp
      rcases mem_insertSorted k v rest p hp with h | rfl
      · exact h0 p h
      · exact hk0
    · have hk0 : k0 = k := (cmp_eq_eq_iff k0 k).mp hc
      subst hk0
      simp only [insertSorted, hc]
      rw [List.pairwise_cons]
      exact ⟨h0, hrest⟩
    · have hk0 : k < k0 := (cmp_eq_gt_iff k0 k).mp hc
      simp only [insertSorted, hc]
      rw [List.pairwise_cons]
      refine ⟨?_, List.pairwise_cons.mpr ⟨h0, hrest⟩⟩
      intro p hp
      rcases List.mem_cons.mp hp with rfl | hp
      · exact hk0
      · exact lt_trans hk0 (h0 p hp)

/-- Binary-search-tree ordering is equivalent to the in-order traversal
being strictly increasing in its keys. -/
theorem isBST_iff_pairwise (t : Tree K V) :
    isBST t = true ↔ (toList t).Pairwise fun p q => p.1 < q.1 := by
  induction t with
  | nil => simp [isBST, toList]
  | node c k v l r ihl ihr =>
    rw [toList, List.pairwise_append]
    simp only [List.pairwise_cons]
    constructor
    · intro h
      obtain ⟨hkl, hkr, hbl, hbr⟩ := isBST_node h
      have hkl' := (allKeysB_iff_toList _ l).mp hkl
      have hkr' := (allKeysB_iff_toList _ r).mp hkr
      refine ⟨ihl.mp hbl, ⟨?_, ihr.mp hbr⟩, ?_⟩
      · intro p hp
        have := hkr' p hp
        simpa using this
      · intro a ha b hb
        have ha' : a.1 < k := by simpa using hkl' a ha
        rcases List.mem_cons.mp hb with rfl | hb
        · exact ha'
        · have : k < b.1 := by simpa using hkr' b hb
          exact lt_trans ha' this
    · rintro ⟨hpl, ⟨hmid, hpr⟩, hcross⟩
      have hkl : allKeysB (fun x => decide (x < k)) l = true := by
        rw [allKeysB_iff_toList]
        intro kv hkv
        have := hcross kv hkv (k, v) (by simp)
        simpa using this
      have hkr : allKeysB (fun x => decide (k < x)) r = true := by
        rw [allKeysB_iff_toList]
        intro kv hkv
        have := hmid kv hkv
        simpa using this
      simp [isBST, Bool.and_eq_true, hkl, hkr, ihl.mpr hpl, ihr.mpr hpr]

theorem inorderKeys_eq_map (t : Tree K V) :
    inorderKeys t = (toList t).map Prod.fst := by
  induction t with
  | nil => rfl
  | node c k v l r ihl ihr => simp [inorderKeys, toList, ihl, ihr]

/-- Folding the list model over a sequence of inserts computes `lastInserted`
under association lookup. -/
theorem assocLookup_modelList (ops : List (K × V)) (q : K) :
    assocLookup (modelList ops) q = lastInserted ops q := by
  have main : ∀ (ops : List (K × V)) (L : List (K × V)) (acc : Option V),
      assocLookup L q = acc →
      assocLookup (ops.foldl (fun L kv => insertSorted kv.1 kv.2 L) L) q =
        ops.foldl (fun acc kv => if kv.1 = q then some kv.2 else acc) acc := by
    intro ops
    induction ops with
    | nil => intro L acc h; simpa using h
    | cons kv0 rest ih =>
      intro L acc h
      obtain ⟨k0, v0⟩ := kv0
      simp only [List.foldl_cons]
      apply ih
      rw [assocLookup_insertSorted, h]
  exact main ops [] none rfl

/-! ### The main preservation lemma for one recursive insertion -/

/-- On a node whose children are not both RED, the entry color flip of
`_insert` does nothing and the body reduces to compare-recurse-fix. -/
theorem insertGo_noflip (c : Bool) (key : K) (val : V) (l r : Tree K V) (k : K) (v : V)
    (h : shouldFlipColor (.node c key val l r) = false) :
    insertGo (.node c key val l r) k v =
      match cmp key k with
      | Ordering.eq => insertFix (.node c key v l r)
      | Ordering.lt => (insertGo r k v).bind fun r2 => insertFix (.node c key val l r2)
      | Ordering.gt => (insertGo l k v).bind fun l2 => insertFix (.node c key val l2 r) := by
  rw [insertGo]
  simp [h]

/-- A tree whose root's children both satisfy `okRed` either satisfies
`okRed` outright or exhibits the one transient violation: a RED root with a
RED left child. -/
theorem almostOkRed_resolve {t : Tree K V}
    (ha : almostOkRed t = true) (hnr : noRedRight t = true) :
    okRed t = true ∨ (red t = true ∧ red (leftChild t) = true) := by
  cases t with
  | nil => exact Or.inl rfl
  | node c k v l r =>
    simp only [almostOkRed, Bool.and_eq_true] at ha
    obtain ⟨hrr, _, _⟩ := noRedRight_node hnr
    rcases hc : c with _ | _
    · exact Or.inl (okRed_node_intro (by simp) ha.1 ha.2)
    · rcases hl : red l with _ | _
      · exact Or.inl (okRed_node_intro (fun _ => ⟨hl, hrr⟩) ha.1 ha.2)
      · exact Or.inr ⟨rfl, by simpa [leftChild] using hl⟩

/-- Main lemma: one `_insert` on a tree satisfying the red invariants, the
BST invariant and uniform black height returns (never panics) a tree with
the same black height whose in-order list is the sorted-list insertion, all
red invariants intact except possibly a RED root with a RED left child, and
with no violation at all when the root was not RED. -/
theorem insertGo_spec (k : K) (v : V) :
    ∀ t : Tree K V, noRedRight t = true → okRed t = true → isBST t = true →
      ∀ n : Nat, bh t = some n →
      ∃ t', insertGo t k v = some t' ∧
        noRedRight t' = true ∧ almostOkRed t' = true ∧
        (red t = false → okRed t' = true) ∧
        bh t' = some n ∧
        toList t' = insertSorted k v (toList t) := by
  intro t
  induction t with
  | nil =>
    intro _ _ _ n hbh
    rw [bh] at hbh
    injection hbh with hn
    subst hn
    refine ⟨.node true k v .nil .nil, by rw [insertGo], ?_, ?_, ?_, ?_, ?_⟩ <;>
      simp [noRedRight, almostOkRed, okRed, bh, toList, insertSorted]
  | node c key val l r ihl ihr =>
    intro hnr hok hbst n hbh
    obtain ⟨hrr, hnrl, hnrr⟩ := noRedRight_node hnr
    obtain ⟨hcc, hokl, hokr⟩ := okRed_node hok
    obtain ⟨hkl, hkr, hbstl, hbstr⟩ := isBST_node hbst
    obtain ⟨a, hbl, hbr, hn⟩ := bh_node hbh
    have hflip : shouldFlipColor (.node c key val l r) = false := by
      rw [shouldFlipColor_node, hrr, Bool.and_false]
    rw [insertGo_noflip c key val l r k v hflip]
    have hkl' : ∀ kv ∈ toList l, kv.1 < key := fun kv hkv => by
      simpa using (allKeysB_iff_toList _ l).mp hkl kv hkv
    have hkr' : ∀ kv ∈ toList r, key < kv.1 := fun kv hkv => by
      simpa using (allKeysB_iff_toList _ r).mp hkr kv hkv
    rcases hcmp : cmp key k with _ | _ | _
    · -- Less: the node's key is smaller, recurse into the right child
      have hkey : key < k := (cmp_eq_lt_iff key k).mp hcmp
      obtain ⟨r', hr', hnr', ha', hokr', hbr', htr'⟩ :=
        ihr hnrr hokr hbstr a hbr
      have hokR : okRed r' = true := hokr' hrr
      have hpush : insertSorted k v (toList (Tree.node c key val l r)) =
          toList l ++ (key, val) :: insertSorted k v (toList r) := by
        rw [toList, show toList l ++ (key, val) :: toList r =
          (toList l ++ [(key, val)]) ++ toList r by simp,
          insertSorted_append_of_lt k v _ _ ?bound]
        · simp
        case bound =>
          intro kv hkv
          rcases List.mem_append.mp hkv with h | h
          · exact lt_trans (hkl' kv h) hkey
          · simp at h
            subst h
            exact hkey
      rcases hredr' : red r' with _ | _
      · -- the updated right child came back BLACK: nothing fires
        refine ⟨.node c key val l r', ?_, ?_, ?_, ?_, ?_, ?_⟩
        · simp only [hcmp, hr', Option.some_bind',
            insertFix_id c key val l r' hredr' (okRed_no_redred hokl)]
        · exact noRedRight_node_intro hredr' hnrl hnr'
        · exact almostOkRed_node_intro hokl hokR
        · intro hc
          rcases c with _ | _
          · exact okRed_node_intro (by simp) hokl hokR
          · simp at hc
        · rw [bh_node_intro c key val hbl hbr', hn]
        · rw [toList, htr', hpush]
      · -- the updated right child came back RED: right-leaning link
        cases r' with
        | nil => simp [red_nil] at hredr'
        | node rc rk rv rl' rr' =>
        simp only [red_node] at hredr'
        subst hredr'
        obtain ⟨hrcc, hokrl', hokrr'⟩ := okRed_node hokR
        obtain ⟨hrrr', hnrrl', hnrrr'⟩ := noRedRight_node hnr'
        obtain ⟨hredrl', _⟩ := hrcc rfl
        obtain ⟨b, hbrl', hbrr', hb⟩ := bh_node hbr'
        simp only [if_true] at hb
        subst hb
        rcases hredl : red l with _ | _
        · -- left child BLACK: a single left rotation repairs the link
          refine ⟨.node c rk rv (.node true key val l rl') rr', ?_, ?_, ?_, ?_, ?_, ?_⟩
          · simp only [hcmp, hr', Option.some_bind',
              insertFix_rotL c key val l rk rv rl' rr' hredl hrrr']
          · exact noRedRight_node_intro hrrr'
              (noRedRight_node_intro hredrl' hnrl hnrrl') hnrrr'
          · exact almostOkRed_node_intro
              (okRed_node_intro (fun _ => ⟨hredl, hredrl'⟩) hokl hokrl') hokrr'
          · intro hc
            rcases c with _ | _
            · exact okRed_node_intro (by simp)
                (okRed_node_intro (fun _ => ⟨hredl, hredrl'⟩) hokl hokrl') hokrr'
            · simp at hc
          · rw [bh_node_intro c rk rv (bh_node_intro true key val hbl hbrl') hbrr']
            simp only [if_true]
            rw [hn]
          · rw [hpush, ← htr']
            simp [toList]
        · -- left child RED too (so the root is BLACK): flip colors
          have hcblack : c = false := by
            rcases c with _ | _
            · rfl
            · exact absurd (hcc rfl).1 (by simp [hredl])
          subst hcblack
          cases l with
          | nil => simp [red_nil] at hredl
          | node lc lk lv ll lr =>
          simp only [red_node] at hredl
          subst hredl
          have hll : red ll = false := (okRed_node hokl).1 rfl |>.1
          refine ⟨.node true key val (.node false lk lv ll lr)
              (.node false rk rv rl' rr'), ?_, ?_, ?_, ?_, ?_, ?_⟩
          · simp only [hcmp, hr', Option.some_bind', Bool.not_false,
              insertFix_flip false key val lk lv ll lr rk rv rl' rr' hll]
          · obtain ⟨hlrr, hnrll, hnrlr⟩ := noRedRight_node hnrl
            exact noRedRight_node_intro rfl
              (noRedRight_node_intro hlrr hnrll hnrlr)
              (noRedRight_node_intro hrrr' hnrrl' hnrrr')
          · exact almostOkRed_node_intro
              (okRed_flipRootColor_red hokl rfl)
              (okRed_flipRootColor_red hokR rfl)
          · intro _
            exact okRed_node_intro (fun _ => ⟨rfl, rfl⟩)
              (okRed_flipRootColor_red hokl rfl)
              (okRed_flipRootColor_red hokR rfl)
          · have h1 : bh (Tree.node false lk lv ll lr) = some (a + 1) := by
              simpa using bh_flipRootColor_red (t := Tree.node true lk lv ll lr) rfl hbl
            have h2 : bh (Tree.node false rk rv rl' rr') = some (a + 1) := by
              simpa using bh_flipRootColor_red (t := Tree.node true rk rv rl' rr') rfl hbr'
            rw [bh_node_intro true key val h1 h2, hn]
            simp
          · rw [hpush, ← htr']
            simp [toList]
    · -- Equal: overwrite the value in place; no fix-up step fires
      have hkey : key = k := (cmp_eq_eq_iff key k).mp hcmp
      refine ⟨.node c key v l r,
        by simp only [hcmp, insertFix_id c key v l r hrr (okRed_no_redred hokl)],
        noRedRight_node_intro hrr hnrl hnrr,
        almostOkRed_node_intro hokl hokr,
        fun _ => okRed_node_intro hcc hokl hokr,
        by rw [bh_node_intro c key v hbl hbr, hn],
        ?_⟩
      subst hkey
      rw [toList, toList, insertSorted_append_of_lt key v (toList l) _
        (fun kv hkv => hkl' kv hkv), insertSorted_cons_self]
    · -- Greater: the node's key is larger, recurse into the left child
      have hkey : k < key := (cmp_eq_gt_iff key k).mp hcmp
      obtain ⟨l', hl', hnl', ha', hokl', hbl', htl'⟩ :=
        ihl hnrl hokl hbstl a hbl
      have hpush : insertSorted k v (toList (Tree.node c key val l r)) =
          insertSorted k v (toList l) ++ (key, val) :: toList r := by
        rw [toList, insertSorted_append_of_gt k v key val _ _ hkey]
      rcases almostOkRed_resolve ha' hnl' with hokL | ⟨hredl', hredll'⟩
      · -- no violation came back: nothing fires
        refine ⟨.node c key val l' r, ?_, ?_, ?_, ?_, ?_, ?_⟩
        · simp only [hcmp, hl', Option.some_bind',
            insertFix_id c key val l' r hrr (okRed_no_redred hokL)]
        · exact noRedRight_node_intro hrr hnl' hnrr
        · exact almostOkRed_node_intro hokL hokr
        · intro hc
          rcases c with _ | _
          · exact okRed_node_intro (by simp) hokL hokr
          · simp at hc
        · rw [bh_node_intro c key val hbl' hbr, hn]
        · rw [toList, htl', hpush]
      · -- a RED-RED left chain came back: rotate right, then flip
        have hcblack : c = false := by
          rcases hredl : red l with _ | _
          · rcases c with _ | _
            · rfl
            · -- RED root has BLACK left child, whose insert keeps a BLACK root
              exfalso
              have := hokl' hredl
              have := okRed_no_redred this hredl'
              rw [this] at hredll'
              exact Bool.false_ne_true hredll'
          · rcases c with _ | _
            · rfl
            · exact absurd (hcc rfl).1 (by simp [hredl])
        subst hcblack
        cases l' with
        | nil => simp [red_nil] at hredl'
        | node lc' lk lv ll' lr' =>
        simp only [red_node] at hredl'
        subst hredl'
        simp only [leftChild_node] at hredll'
        cases ll' with
        | nil => simp [red_nil] at hredll'
        | node llc llk llv lll llr =>
        simp only [red_node] at hredll'
        subst hredll'
        simp only [almostOkRed, Bool.and_eq_true] at ha'
        obtain ⟨hokll', hoklr'⟩ := ha'
        obtain ⟨hlrr', hnrll', hnrlr'⟩ := noRedRight_node hnl'
        obtain ⟨hllrr, hnrlll, hnrllr⟩ := noRedRight_node hnrll'
        obtain ⟨hllcc, hoklll, hokllr⟩ := okRed_node hokll'
        obtain ⟨hllred, _⟩ := hllcc rfl
        obtain ⟨b, hbll', hblr', hb⟩ := bh_node hbl'
        simp only [if_true] at hb
        subst hb
        obtain ⟨d, hblll, hbllr, hd⟩ := bh_node hbll'
        simp only [if_true] at hd
        subst hd
        refine ⟨.node true lk lv (.node false llk llv lll llr)
            (.node false key val lr' r), ?_, ?_, ?_, ?_, ?_, ?_⟩
        · simp only [hcmp, hl', Option.some_bind', Bool.not_false,
            insertFix_rotR_flip false key val lk lv llk llv lll llr lr' r hrr]
        · exact noRedRight_node_intro rfl
            (noRedRight_node_intro hllrr hnrlll hnrllr)
            (noRedRight_node_intro hrr hnrlr' hnrr)
        · exact almostOkRed_node_intro
            (okRed_node_intro (by simp) hoklll hokllr)
            (okRed_node_intro (by simp) hoklr' hokr)
        · intro _
          exact okRed_node_intro (fun _ => ⟨rfl, rfl⟩)
            (okRed_node_intro (by simp) hoklll hokllr)
            (okRed_node_intro (by simp) hoklr' hokr)
        · rw [bh_node_intro true lk lv
            (bh_node_intro false llk llv hblll hbllr)
            (bh_node_intro false key val hblr' hbr), hn]
          simp
        · rw [hpush, ← htl']
          simp [toList]

/-! ### From one insert call to reachable trees -/

theorem toList_setRootBlack (t : Tree K V) : toList (setRootBlack t) = toList t := by
  cases t <;> simp [setRootBlack, toList]

theorem red_setRootBlack (t : Tree K V) : red (setRootBlack t) = false := by
  cases t <;> simp [setRootBlack, red]

theorem noRedRight_setRootBlack {t : Tree K V} (h : noRedRight t = true) :
    noRedRight (setRootBlack t) = true := by
  cases t with
  | nil => simpa [setRootBlack] using h
  | node c k v l r =>
    obtain ⟨h1, h2, h3⟩ := noRedRight_node h
    exact noRedRight_node_intro h1 h2 h3

theorem okRed_setRootBlack {t : Tree K V} (h : almostOkRed t = true) :
    okRed (setRootBlack t) = true := by
  cases t with
  | nil => simp [setRootBlack, okRed]
  | node c k v l r =>
    simp only [almostOkRed, Bool.and_eq_true] at h
    exact okRed_node_intro (by simp) h.1 h.2

theorem bh_setRootBlack {t : Tree K V} {n : Nat} (h : bh t = some n) :
    ∃ m, bh (setRootBlack t) = some m := by
  cases t with
  | nil => exact ⟨0, rfl⟩
  | node c k v l r =>
    obtain ⟨a, hl, hr, _⟩ := bh_node h
    exact ⟨a + 1, by simpa using bh_node_intro false k v hl hr⟩

/-- One public `insert` call preserves all reachable-tree invariants and acts
as sorted-list insertion on the in-order contents. -/
theorem insert_spec {t : Tree K V} (hwf : WF t) (k : K) (v : V) :
    ∃ t', insert t k v = some t' ∧ WF t' ∧ toList t' = insertSorted k v (toList t) := by
  obtain ⟨hnr, hok, ⟨n, hbh⟩, hbst, hred⟩ := hwf
  obtain ⟨t'', hgo, hnr', ha', hok', hbh', hlist⟩ :=
    insertGo_spec k v t hnr hok hbst n hbh
  refine ⟨setRootBlack t'', by rw [insert, hgo, Option.map_some'], ?_, ?_⟩
  · refine ⟨noRedRight_setRootBlack hnr', okRed_setRootBlack ha', ?_, ?_,
      red_setRootBlack t''⟩
    · obtain ⟨m, hm⟩ := bh_setRootBlack hbh'
      exact ⟨m, hm⟩
    · rw [isBST_iff_pairwise, toList_setRootBlack, hlist]
      exact insertSorted_pairwise k v _ ((isBST_iff_pairwise t).mp hbst)
  · rw [toList_setRootBlack, hlist]

theorem WF_nil : WF (Tree.nil : Tree K V) :=
  ⟨rfl, rfl, ⟨0, rfl⟩, rfl, rfl⟩

theorem buildFrom_spec (ops : List (K × V)) :
    ∀ t : Tree K V, WF t → ∀ t', buildFrom t ops = some t' →
      WF t' ∧ toList t' = ops.foldl (fun L kv => insertSorted kv.1 kv.2 L) (toList t) := by
  induction ops with
  | nil =>
    intro t hwf t' h
    rw [buildFrom] at h
    injection h with h
    subst h
    exact ⟨hwf, rfl⟩
  | cons kv rest ih =>
    intro t hwf t' h
    obtain ⟨t1, h1, hwf1, hlist1⟩ := insert_spec hwf kv.1 kv.2
    rw [buildFrom, h1, Option.some_bind'] at h
    obtain ⟨hwf', hlist'⟩ := ih t1 hwf1 t' h
    refine ⟨hwf', ?_⟩
    rw [hlist', List.foldl_cons, hlist1]

/-- Every tree built from `new()` by a sequence of `insert` calls satisfies
the reachable-tree invariants, and its in-order contents are the fold of the
sorted-list insertions. -/
theorem build_spec {ops : List (K × V)} {t : Tree K V} (h : build ops = some t) :
    WF t ∧ toList t = modelList ops := by
  have := buildFrom_spec ops Tree.nil WF_nil t h
  simpa [toList, modelList] using this

/-- On reachable trees, `search` computes exactly the most recently inserted
value for the sought key. -/
theorem search_build {ops : List (K × V)} {t : Tree K V} (h : build ops = some t)
    (q : K) : search t q = lastInserted ops q := by
  obtain ⟨⟨_, _, _, hbst, _⟩, hlist⟩ := build_spec h
  rw [search_eq_assocLookup t q hbst, hlist, assocLookup_modelList]

/-! ### Black-height, path counts and depth bounds (claim C4 machinery) -/

theorem blackCounts_const {t : Tree K V} {n : Nat} (h : bh t = some n) :
    ∀ d ∈ blackCounts t, d = n := by
  induction t generalizing n with
  | nil =>
    rw [bh] at h
    injection h with h
    subst h
    simp [blackCounts]
  | node c k v l r ihl ihr =>
    obtain ⟨a, hl, hr, hn⟩ := bh_node h
    subst hn
    intro d hd
    simp only [blackCounts, List.mem_map, List.mem_append] at hd
    obtain ⟨d0, hd0, rfl⟩ := hd
    rcases hd0 with hd0 | hd0
    · rw [ihl hl d0 hd0]
    · rw [ihr hr d0 hd0]

theorem minDepth_ge_bh {t : Tree K V} {n : Nat} (h : bh t = some n) :
    n ≤ minDepth t := by
  induction t generalizing n with
  | nil =>
    rw [bh] at h
    injection h with h
    omega
  | node c k v l r ihl ihr =>
    obtain ⟨a, hl, hr, hn⟩ := bh_node h
    have h1 := ihl hl
    have h2 := ihr hr
    rw [minDepth]
    rcases c with _ | _ <;> simp at hn <;> omega

theorem maxDepth_le_bh {t : Tree K V} {n : Nat}
    (hok : okRed t = true) (h : bh t = some n) :
    maxDepth t ≤ 2 * n + (if red t then 1 else 0) := by
  induction t generalizing n with
  | nil =>
    rw [bh] at h
    injection h with h
    simp [maxDepth]
  | node c k v l r ihl ihr =>
    obtain ⟨hcc, hokl, hokr⟩ := okRed_node hok
    obtain ⟨a, hl, hr, hn⟩ := bh_node h
    have h1 := ihl hokl hl
    have h2 := ihr hokr hr
    rw [maxDepth]
    rcases hc : c with _ | _
    · subst hc
      simp only [red_node, if_false]
      simp at hn
      subst hn
      have : (if red l then 1 else 0) ≤ 1 := by split <;> omega
      have : (if red r then 1 else 0) ≤ 1 := by split <;> omega
      omega
    · subst hc
      obtain ⟨hbl, hbr⟩ := hcc rfl
      rw [hbl] at h1
      rw [hbr] at h2
      simp at hn
      subst hn
      simp only [red_node, if_true]
      simp at h1 h2
      omega

/-! ### The entry flip is dead code on reachable trees (claim C10 machinery) -/

theorem insertGo_eq_insertGoNF {t : Tree K V} (hnr : noRedRight t = true)
    (k : K) (v : V) : insertGo t k v = insertGoNF t k v := by
  induction t with
  | nil => rw [insertGo, insertGoNF]
  | node c key val l r ihl ihr =>
    obtain ⟨hrr, hnrl, hnrr⟩ := noRedRight_node hnr
    have hflip : shouldFlipColor (.node c key val l r) = false := by
      rw [shouldFlipColor_node, hrr, Bool.and_false]
    rw [insertGo_noflip c key val l r k v hflip, insertGoNF, ihl hnrl, ihr hnrr]

/-! ### Inserting an existing key only updates that value (claim C7 machinery) -/

theorem strip_updateValue (t : Tree K V) (k : K) (v : V) :
    strip (updateValue t k v) = strip t := by
  induction t with
  | nil => rfl
  | node c key val l r ihl ihr =>
    rw [updateValue]
    rcases hcmp : cmp key k with _ | _ | _ <;> simp [strip, ihl, ihr]

theorem size_updateValue (t : Tree K V) (k : K) (v : V) :
    Tree.size (updateValue t k v) = Tree.size t := by
  induction t with
  | nil => rfl
  | node c key val l r ihl ihr =>
    rw [updateValue]
    rcases hcmp : cmp key k with _ | _ | _ <;> simp [Tree.size, ihl, ihr]

theorem red_updateValue (t : Tree K V) (k : K) (v : V) :
    red (updateValue t k v) = red t := by
  cases t with
  | nil => rfl
  | node c key val l r =>
    rw [updateValue]
    rcases hcmp : cmp key k with _ | _ | _ <;> simp [red]

theorem toList_updateValue_mem (t : Tree K V) (k : K) (v : V)
    (hbst : isBST t = true) (hmem : k ∈ inorderKeys t) :
    toList (updateValue t k v) = insertSorted k v (toList t) := by
  induction t with
  | nil => simp [inorderKeys] at hmem
  | node c key val l r ihl ihr =>
    obtain ⟨hkl, hkr, hbstl, hbstr⟩ := isBST_node hbst
    have hkl' : ∀ kv ∈ toList l, kv.1 < key := fun kv hkv => by
      simpa using (allKeysB_iff_toList _ l).mp hkl kv hkv
    have hkr' : ∀ kv ∈ toList r, key < kv.1 := fun kv hkv => by
      simpa using (allKeysB_iff_toList _ r).mp hkr kv hkv
    rw [updateValue]
    rcases hcmp : cmp key k with _ | _ | _
    · -- key < k : the key sits in the right subtree
      have hkey : key < k := (cmp_eq_lt_iff key k).mp hcmp
      have hmr : k ∈ inorderKeys r := by
        rw [inorderKeys_eq_map] at hmem ⊢
        simp only [toList, List.map_append, List.map_cons, List.mem_append,
          List.mem_cons] at hmem
        rcases hmem with h | h | h
        · obtain ⟨kv, hkv, rfl⟩ := List.mem_map.mp h
          exact absurd (hkl' kv hkv) (not_lt_of_gt hkey)
        · exact absurd h (ne_of_gt hkey)
        · exact h
      rw [toList, toList, show toList l ++ (key, val) :: toList r =
        (toList l ++ [(key, val)]) ++ toList r by simp,
        insertSorted_append_of_lt k v (toList l ++ [(key, val)]) (toList r) ?bound]
      · simp [ihr hbstr hmr]
      case bound =>
        intro kv hkv
        rcases List.mem_append.mp hkv with h | h
        · exact lt_trans (hkl' kv h) hkey
        · simp at h
          subst h
          exact hkey
    · -- key = k : replace here
      have hkey : key = k := (cmp_eq_eq_iff key k).mp hcmp
      subst hkey
      rw [toList, toList,
        insertSorted_append_of_lt key v (toList l) _ (fun kv hkv => hkl' kv hkv),
        insertSorted_cons_self]
    · -- k < key : the key sits in the left subtree
      have hkey : k < key := (cmp_eq_gt_iff key k).mp hcmp
      have hml : k ∈ inorderKeys l := by
        rw [inorderKeys_eq_map] at hmem ⊢
        simp only [toList, List.map_append, List.map_cons, List.mem_append,
          List.mem_cons] at hmem
        rcases hmem with h | h | h
        · exact h
        · exact absurd h (ne_of_lt hkey)
        · obtain ⟨kv, hkv, rfl⟩ := List.mem_map.mp h
          exact absurd (hkr' kv hkv) (not_lt_of_gt hkey)
      rw [toList, toList, insertSorted_append_of_gt k v key val _ _ hkey,
        ihl hbstl hml]

/-- Inserting a key that is already present performs exactly the pure value
replacement `updateValue`: the recursive repair pass finds nothing to fix. -/
theorem insertGo_mem_eq_updateValue {t : Tree K V}
    (hnr : noRedRight t = true) (hok : okRed t = true) (hbst : isBST t = true)
    (k : K) (v : V) (hmem : k ∈ inorderKeys t) :
    insertGo t k v = some (updateValue t k v) := by
  induction t with
  | nil => simp [inorderKeys] at hmem
  | node c key val l r ihl ihr =>
    obtain ⟨hrr, hnrl, hnrr⟩ := noRedRight_node hnr
    obtain ⟨hcc, hokl, hokr⟩ := okRed_node hok
    obtain ⟨hkl, hkr, hbstl, hbstr⟩ := isBST_node hbst
    have hkl' : ∀ kv ∈ toList l, kv.1 < key := fun kv hkv => by
      simpa using (allKeysB_iff_toList _ l).mp hkl kv hkv
    have hkr' : ∀ kv ∈ toList r, key < kv.1 := fun kv hkv => by
      simpa using (allKeysB_iff_toList _ r).mp hkr kv hkv
    have hflip : shouldFlipColor (.node c key val l r) = false := by
      rw [shouldFlipColor_node, hrr, Bool.and_false]
    rw [insertGo_noflip c key val l r k v hflip, updateValue]
    rcases hcmp : cmp key k with _ | _ | _
    · have hkey : key < k := (cmp_eq_lt_iff key k).mp hcmp
      have hmr : k ∈ inorderKeys r := by
        rw [inorderKeys_eq_map] at hmem ⊢
        simp only [toList, List.map_append, List.map_cons, List.mem_append,
          List.mem_cons] at hmem
        rcases hmem with h | h | h
        · obtain ⟨kv, hkv, rfl⟩ := List.mem_map.mp h
          exact absurd (hkl' kv hkv) (not_lt_of_gt hkey)
        · exact absurd h (ne_of_gt hkey)
        · exact h
      rw [ihr hnrr hokr hbstr hmr, Option.some_bind']
      have hredr : red (updateValue r k v) = false := by rw [red_updateValue, hrr]
      exact insertFix_id c key val l (updateValue r k v) hredr (okRed_no_redred hokl)
    · exact insertFix_id c key v l r hrr (okRed_no_redred hokl)
    · have hkey : k < key := (cmp_eq_gt_iff key k).mp hcmp
      have hml : k ∈ inorderKeys l := by
        rw [inorderKeys_eq_map] at hmem ⊢
        simp only [toList, List.map_append, List.map_cons, List.mem_append,
          List.mem_cons] at hmem
        rcases hmem with h | h | h
        · exact h
        · exact absurd h (ne_of_lt hkey)
        · obtain ⟨kv, hkv, rfl⟩ := List.mem_map.mp h
          exact absurd (hkr' kv hkv) (not_lt_of_gt hkey)
      rw [ihl hnrl hokl hbstl hml, Option.some_bind']
      have hrotr : red (updateValue l k v) = true →
          red (leftChild (updateValue l k v)) = false := by
        intro hred
        rw [red_updateValue] at hred
        cases l with
        | nil => simp [red_nil] at hred
        | node lc lk lv ll lr =>
          simp only [red_node] at hred
          subst hred
          obtain ⟨hc1, _, _⟩ := okRed_node hokl
          rw [updateValue]
          rcases hcl : cmp lk k with _ | _ | _ <;>
            simp only [leftChild_node, red_updateValue] <;>
            exact (hc1 rfl).1
      exact insertFix_id c key val (updateValue l k v) r hrr hrotr

/-! ### Order-independence of the contents (claim C8 machinery) -/

theorem lastInserted_eq_filter (ops : List (K × V)) (q : K) :
    lastInserted ops q =
      match (ops.filter fun kv => decide (kv.1 = q)).getLast? with
      | some kv => some kv.2
      | none => none := by
  have main : ∀ (ops : List (K × V)) (acc : Option V),
      ops.foldl (fun acc kv => if kv.1 = q then some kv.2 else acc) acc =
        match (ops.filter fun kv => decide (kv.1 = q)).getLast? with
        | some kv => some kv.2
        | none => acc := by
    intro ops
    induction ops with
    | nil => intro acc; rfl
    | cons kv rest ih =>
      intro acc
      rw [List.foldl_cons, ih]
      by_cases hq : kv.1 = q
      · rw [List.filter_cons_of_pos (by simp [hq])]
        rcases hL : rest.filter (fun kv => decide (kv.1 = q)) with _ | ⟨a, L⟩
        · rw [hL]
          simp [hq]
        · rw [hL, List.getLast?_cons_cons,
            List.getLast?_eq_getLast (a :: L) (by simp)]
      · rw [List.filter_cons_of_neg (by simp [hq])]
        simp [hq]
  exact main ops none

theorem filter_key_length_le_one (ops : List (K × V)) (q : K)
    (hnd : (ops.map Prod.fst).Nodup) :
    (ops.filter fun kv => decide (kv.1 = q)).length ≤ 1 := by
  induction ops with
  | nil => simp
  | cons kv rest ih =>
    rw [List.map_cons, List.nodup_cons] at hnd
    obtain ⟨hne, hnd'⟩ := hnd
    by_cases hq : kv.1 = q
    · have hr : rest.filter (fun kv => decide (kv.1 = q)) = [] := by
        rw [List.filter_eq_nil_iff]
        intro a ha
        simp only [decide_eq_true_eq]
        intro haq
        refine hne ?_
        rw [hq, ← haq]
        exact List.mem_map_of_mem Prod.fst ha
      simp [List.filter_cons, hq, hr]
    · simp [List.filter_cons, hq]
      exact ih hnd'

theorem perm_eq_of_length_le_one {α : Type} {L1 L2 : List α} (h : L1.Perm L2)
    (hl : L1.length ≤ 1) : L1 = L2 := by
  rcases L1 with _ | ⟨a, L⟩
  · exact h.nil_eq
  · rcases L with _ | ⟨b, L'⟩
    · exact (List.perm_singleton.mp h.symm).symm
    · simp at hl

/-- With pairwise distinct keys, the most recently inserted value for any key
is invariant under reordering the insert sequence. -/
theorem lastInserted_perm {ops1 ops2 : List (K × V)} (hperm : ops1.Perm ops2)
    (hnd : (ops1.map Prod.fst).Nodup) (q : K) :
    lastInserted ops1 q = lastInserted ops2 q := by
  rw [lastInserted_eq_filter, lastInserted_eq_filter]
  have hpf := hperm.filter (fun kv => decide (kv.1 = q))
  have heq := perm_eq_of_length_le_one hpf (filter_key_length_le_one ops1 q hnd)
  rw [heq]

theorem setRootBlack_of_black {t : Tree K V} (h : red t = false) :
    setRootBlack t = t := by
  cases t with
  | nil => rfl
  | node c k v l r =>
    simp only [red_node] at h
    subst h
    rfl

/-! ## The claims -/

/-- Claim C1: for every finite sequence of insert calls starting from
`new()`, and for every key `q`: if `q` was inserted at least once, `search q`
returns `some` of the most recently inserted value for `q`; if `q` was never
inserted, `search q` returns `none` — i.e. `search` computes exactly
`lastInserted`. -/
theorem claim_c1 (ops : List (K × V)) (q : K) (t : Tree K V)
    (hb : build ops = some t) : search t q = lastInserted ops q :=
  search_build hb q

/-- Claim C2: every tree built from `new()` by insert calls has a strictly
increasing in-order key sequence, and at every node all left-subtree keys
are smaller and all right-subtree keys are larger than the node's key. -/
theorem claim_c2 (ops : List (K × V)) (t : Tree K V) (hb : build ops = some t) :
    List.Chain' (· < ·) (inorderKeys t) ∧ isBST t = true := by
  obtain ⟨⟨_, _, _, hbst, _⟩, _⟩ := build_spec hb
  refine ⟨?_, hbst⟩
  rw [inorderKeys_eq_map]
  exact (((isBST_iff_pairwise t).mp hbst).map Prod.fst (fun a b h => h)).chain'

/-- Claim C3: in every tree built from `new()` by insert calls, no node has a
RED right child, and no downward path has two consecutive RED links (every
RED node has only non-RED children). -/
theorem claim_c3 (ops : List (K × V)) (t : Tree K V) (hb : build ops = some t) :
    noRedRight t = true ∧ okRed t = true :=
  ⟨(build_spec hb).1.1, (build_spec hb).1.2.1⟩

/-- Claim C4: every tree built from `new()` by insert calls has a uniform
black-link count on all root-to-empty-child paths, and its maximum depth to
an empty child is at most twice its minimum depth. -/
theorem claim_c4 (ops : List (K × V)) (t : Tree K V) (hb : build ops = some t) :
    (∃ n, ∀ d ∈ blackCounts t, d = n) ∧ maxDepth t ≤ 2 * minDepth t := by
  obtain ⟨⟨hnr, hok, ⟨n, hbh⟩, _, hred⟩, _⟩ := build_spec hb
  refine ⟨⟨n, blackCounts_const hbh⟩, ?_⟩
  have h1 := maxDepth_le_bh hok hbh
  have h2 := minDepth_ge_bh hbh
  rw [hred] at h1
  simp at h1
  omega

/-- Claim C5: after every `insert` call (on any tree at all, hence in
particular on any tree reachable from `new()`), the root, if present, is
BLACK. -/
theorem claim_c5 (t : Tree K V) (k : K) (v : V) (t' : Tree K V)
    (h : insert t k v = some t') : red t' = false := by
  rw [insert] at h
  rcases hg : insertGo t k v with _ | t'' <;> rw [hg] at h
  · simp at h
  · rw [Option.map_some'] at h
    injection h with h
    rw [← h]
    exact red_setRootBlack t''

/-- Claim C6: `insert` and `search` are total — `search` is a total function
by construction, insertion always returns a tree, and each panic site is
unreachable: `_flip_color` is only invoked under `_should_flip_color`, which
guarantees both children exist, and each rotation is only invoked under its
guard, which guarantees the child it unwraps exists. -/
theorem claim_c6 :
    (∀ (t : Tree K V) (k : K) (v : V), (insert t k v).isSome = true) ∧
    (∀ (t : Tree K V) (k : K) (v : V), (insertGo t k v).isSome = true) ∧
    (∀ h : Tree K V, shouldFlipColor h = true → (flipColor h).isSome = true) ∧
    (∀ h : Tree K V, shouldRotateLeft (leftChild h) (rightChild h) = true →
      (rotateLeft h).isSome = true) ∧
    (∀ h : Tree K V, shouldRotateRight (leftChild h) = true →
      (rotateRight h).isSome = true) :=
  ⟨insert_isSome, insertGo_isSome, flipColor_isSome, rotateLeft_isSome,
    rotateRight_isSome⟩

/-- Claim C7: on a tree reachable from `new()`, inserting a key that is
already present replaces only that node's value: the result is exactly
`updateValue`, which keeps the shape, every key, every color (witnessed by
`strip`) and the node count, changes no other value (searches for every
other key are unchanged), and maps the inserted key to the new value. -/
theorem claim_c7 (ops : List (K × V)) (t : Tree K V) (hb : build ops = some t)
    (k : K) (v : V) (hmem : k ∈ inorderKeys t) :
    insert t k v = some (updateValue t k v) ∧
    strip (updateValue t k v) = strip t ∧
    Tree.size (updateValue t k v) = Tree.size t ∧
    search (updateValue t k v) k = some v ∧
    (∀ q, q ≠ k → search (updateValue t k v) q = search t q) := by
  obtain ⟨hwf, _⟩ := build_spec hb
  obtain ⟨hnr, hok, hbhE, hbst, hred⟩ := hwf
  have hup : insertGo t k v = some (updateValue t k v) :=
    insertGo_mem_eq_updateValue hnr hok hbst k v hmem
  have hredup : red (updateValue t k v) = false := by
    rw [red_updateValue, hred]
  have hins : insert t k v = some (updateValue t k v) := by
    rw [insert, hup, Option.map_some', setRootBlack_of_black hredup]
  obtain ⟨t', hins', hwf', hlist'⟩ := insert_spec ⟨hnr, hok, hbhE, hbst, hred⟩ k v
  rw [hins] at hins'
  injection hins' with ht'
  subst ht'
  obtain ⟨_, _, _, hbst', _⟩ := hwf'
  have hsearch : ∀ q, search (updateValue t k v) q =
      if k = q then some v else search t q := by
    intro q
    rw [search_eq_assocLookup _ q hbst', hlist', assocLookup_insertSorted,
      search_eq_assocLookup t q hbst]
  refine ⟨hins, strip_updateValue t k v, size_updateValue t k v, ?_, ?_⟩
  · rw [hsearch k, if_pos rfl]
  · intro q hq
    rw [hsearch q, if_neg (fun h => hq h.symm)]

/-- Claim C8: inserting the same set of pairs with pairwise distinct keys in
two different orders yields trees with identical key-to-value mappings:
`search` agrees on every key. -/
theorem claim_c8 (ops1 ops2 : List (K × V)) (hperm : ops1.Perm ops2)
    (hnd : (ops1.map Prod.fst).Nodup) (t1 t2 : Tree K V)
    (h1 : build ops1 = some t1) (h2 : build ops2 = some t2) (q : K) :
    search t1 q = search t2 q := by
  rw [search_build h1 q, search_build h2 q]
  exact lastInserted_perm hperm hnd q

/-- Claim C9: both `insert` and `search` compare `node.key.cmp(&new_key)`:
a `Less` outcome — which holds exactly when the node's key is smaller than
the sought/new key — descends into the right child, and a `Greater` outcome
— exactly when the node's key is larger — descends into the left child, the
standard BST ordering with smaller keys on the left. -/
theorem claim_c9 (c : Bool) (key : K) (val : V) (l r : Tree K V) (k : K) (v : V) :
    (cmp key k = Ordering.lt → search (.node c key val l r) k = search r k) ∧
    (cmp key k = Ordering.gt → search (.node c key val l r) k = search l k) ∧
    (noRedRight (.node c key val l r) = true →
      (cmp key k = Ordering.lt → insertGo (.node c key val l r) k v =
        (insertGo r k v).bind fun r2 => insertFix (.node c key val l r2)) ∧
      (cmp key k = Ordering.gt → insertGo (.node c key val l r) k v =
        (insertGo l k v).bind fun l2 => insertFix (.node c key val l2 r))) ∧
    (cmp key k = Ordering.lt ↔ key < k) ∧
    (cmp key k = Ordering.gt ↔ k < key) := by
  refine ⟨?_, ?_, ?_, cmp_eq_lt_iff key k, cmp_eq_gt_iff key k⟩
  · intro hcmp
    simp only [search, hcmp]
  · intro hcmp
    simp only [search, hcmp]
  · intro hnr
    have hflip : shouldFlipColor (.node c key val l r) = false := by
      rw [shouldFlipColor_node, (noRedRight_node hnr).1, Bool.and_false]
    constructor
    · intro hcmp
      rw [insertGo_noflip c key val l r k v hflip]
      simp only [hcmp]
    · intro hcmp
      rw [insertGo_noflip c key val l r k v hflip]
      simp only [hcmp]

/-- Claim C10: on every tree reachable from `new()` by inserts, `_insert` is
extensionally equal to the same function with the entry color flip removed:
no node visited on the way down has two RED children, because no reachable
node has a RED right child. -/
theorem claim_c10 (ops : List (K × V)) (t : Tree K V) (hb : build ops = some t)
    (k : K) (v : V) : insertGo t k v = insertGoNF t k v :=
  insertGo_eq_insertGoNF (build_spec hb).1.1 k v

/-! ## Concrete witnesses -/

/-- A concrete reachable tree used by the witnesses: insert (5,1) then (6,2)
into the empty tree.  The insert of 6 creates a RED right leaf, which the
left rotation repairs into a BLACK root 6 with RED left child 5. -/
theorem build_two : build [((5 : Nat), (1 : Nat)), (6, 2)] =
    some (.node false 6 2 (.node true 5 1 .nil .nil) .nil) := by
  simp [build, buildFrom, insert, insertGo, insertFix, shouldFlipColor,
    shouldRotateLeft, shouldRotateRight, rotateLeft, rotateRight, flipColor,
    flipRootColor, setRootBlack, leftChild, rightChild, cmp, cmpUsing]

theorem build_two_swapped : build [((6 : Nat), (2 : Nat)), (5, 1)] =
    some (.node false 6 2 (.node true 5 1 .nil .nil) .nil) := by
  simp [build, buildFrom, insert, insertGo, insertFix, shouldFlipColor,
    shouldRotateLeft, shouldRotateRight, rotateLeft, rotateRight, flipColor,
    flipRootColor, setRootBlack, leftChild, rightChild, cmp, cmpUsing]

theorem claim_c1_witness :
    search (Tree.node false 6 2 (Tree.node true 5 1 .nil .nil) .nil) 5 =
      lastInserted [((5 : Nat), (1 : Nat)), (6, 2)] 5 :=
  claim_c1 [(5, 1), (6, 2)] 5 _ build_two

theorem claim_c2_witness :
    List.Chain' (· < ·)
        (inorderKeys (Tree.node false 6 2 (Tree.node true 5 1 .nil .nil) .nil)) ∧
      isBST (Tree.node false 6 2 (Tree.node true 5 1 (Tree.nil : Tree Nat Nat) .nil) .nil) = true :=
  claim_c2 [(5, 1), (6, 2)] _ build_two

theorem claim_c3_witness :
    noRedRight (Tree.node false 6 2 (Tree.node true 5 1 (Tree.nil : Tree Nat Nat) .nil) .nil) = true ∧
      okRed (Tree.node false 6 2 (Tree.node true 5 1 (Tree.nil : Tree Nat Nat) .nil) .nil) = true :=
  claim_c3 [(5, 1), (6, 2)] _ build_two

theorem claim_c4_witness :
    (∃ n, ∀ d ∈ blackCounts
        (Tree.node false 6 2 (Tree.node true 5 1 (Tree.nil : Tree Nat Nat) .nil) .nil), d = n) ∧
      maxDepth (Tree.node false 6 2 (Tree.node true 5 1 (Tree.nil : Tree Nat Nat) .nil) .nil) ≤
        2 * minDepth (Tree.node false 6 2 (Tree.node true 5 1 (Tree.nil : Tree Nat Nat) .nil) .nil) :=
  claim_c4 [(5, 1), (6, 2)] _ build_two

theorem claim_c5_witness :
    red (Tree.node false 5 1 (Tree.nil : Tree Nat Nat) .nil) = false :=
  claim_c5 .nil 5 1 _ (by
    simp [insert, insertGo, setRootBlack])

theorem claim_c6_witness :
    ((insert (Tree.nil : Tree Nat Nat) 5 1).isSome = true) ∧
    ((flipColor (Tree.node false 1 1 (Tree.node true 0 0 (Tree.nil : Tree Nat Nat) .nil)
        (Tree.node true 2 2 .nil .nil))).isSome = true) ∧
    ((rotateLeft (Tree.node false 1 1 (Tree.nil : Tree Nat Nat)
        (Tree.node true 2 2 .nil .nil))).isSome = true) ∧
    ((rotateRight (Tree.node false 2 2
        (Tree.node true 1 1 (Tree.node true 0 0 (Tree.nil : Tree Nat Nat) .nil) .nil)
        .nil)).isSome = true) :=
  ⟨claim_c6.1 .nil 5 1,
    claim_c6.2.2.1 _ (by rfl),
    claim_c6.2.2.2.1 _ (by rfl),
    claim_c6.2.2.2.2 _ (by rfl)⟩

theorem claim_c7_witness :
    insert (Tree.node false 6 2 (Tree.node true 5 1 (Tree.nil : Tree Nat Nat) .nil) .nil) 5 9 =
      some (updateValue (Tree.node false 6 2 (Tree.node true 5 1 .nil .nil) .nil) 5 9) ∧
    search (updateValue (Tree.node false 6 2 (Tree.node true 5 1 (Tree.nil : Tree Nat Nat) .nil) .nil) 5 9) 5 =
      some 9 ∧
    search (updateValue (Tree.node false 6 2 (Tree.node true 5 1 (Tree.nil : Tree Nat Nat) .nil) .nil) 5 9) 6 =
      search (Tree.node false 6 2 (Tree.node true 5 1 .nil .nil) .nil) 6 :=
  have h := claim_c7 [(5, 1), (6, 2)] _ build_two 5 9 (by decide)
  ⟨h.1, h.2.2.2.1, h.2.2.2.2 6 (by decide)⟩

theorem claim_c8_witness :
    search (Tree.node false 6 2 (Tree.node true 5 1 (Tree.nil : Tree Nat Nat) .nil) .nil) 5 =
      search (Tree.node false 6 2 (Tree.node true 5 1 .nil .nil) .nil) 5 :=
  claim_c8 [(5, 1), (6, 2)] [(6, 2), (5, 1)] (by decide) (by decide)
    _ _ build_two build_two_swapped 5

theorem claim_c9_witness :
    search (Tree.node false 5 1 (Tree.nil : Tree Nat Nat) .nil) 7 = search .nil 7 ∧
    insertGo (Tree.node false 5 1 (Tree.nil : Tree Nat Nat) .nil) 7 2 =
      (insertGo .nil 7 2).bind (fun r2 => insertFix (.node false 5 1 .nil r2)) ∧
    (cmp (5 : Nat) 7 = Ordering.lt ↔ (5 : Nat) < 7) :=
  have h := claim_c9 false (5 : Nat) (1 : Nat) .nil .nil 7 2
  ⟨h.1 (by decide), (h.2.2.1 (by rfl)).1 (by decide), h.2.2.2.1⟩

theorem claim_c10_witness :
    insertGo (Tree.node false 6 2 (Tree.node true 5 1 (Tree.nil : Tree Nat Nat) .nil) .nil) 7 3 =
      insertGoNF (Tree.node false 6 2 (Tree.node true 5 1 .nil .nil) .nil) 7 3 :=
  claim_c10 [(5, 1), (6, 2)] _ build_two 7 3

end LLRB
